import Mathlib

/-!
Verification of the COBS (Consistent Overhead Byte Stuffing) codec from
`src/cobs.c` (`cobsEncode`, `cobsDecode`, `maxCobsEncodedLength`).

The two C functions walk caller-supplied byte buffers with raw pointers.
We embed them shallowly:

* the input buffer is a `List Nat` of byte values (reads are reduced
  `% 256`, matching the `uint8_t` element type);
* the encoder's output buffer is a partial map `Nat → Option Nat`
  (`none` = this cell was never written), because the encoder backpatches
  code slots at earlier indices and — for some inputs — writes one cell
  beyond the length it returns, so the set of written indices matters;
* the decoder writes strictly sequentially from index 0, so its output
  buffer is just the list of bytes written, in order;
* `NULL` pointers are modelled with `Option`/`Bool` in the thin wrappers
  `cobsEncodeC` / `cobsDecodeC`; the unwrapped functions are the non-null
  path.
-/

namespace Cobs

/-- A single store `buffer[i] = v` on the partial-map model of a byte buffer. -/
def wr (buf : Nat → Option Nat) (i v : Nat) : Nat → Option Nat :=
  fun j => if j = i then some v else buf j

/-- Store the bytes of `ws` at consecutive indices `i, i+1, …`. -/
def writeSeq (buf : Nat → Option Nat) (i : Nat) : List Nat → (Nat → Option Nat)
  | [] => buf
  | v :: vs => writeSeq (wr buf i v) (i + 1) vs

/-- The encoder loop of `cobsEncode`.

State: remaining input bytes, `pos` (the `encode` cursor as an index into
`buffer`), `codep` (index of the reserved code slot), `code` (running code
value, a `uint8_t`, hence the `% 256` on its increment), and the buffer so
far.  Each iteration mirrors the C body:

    if (*byte) *encode++ = *byte, ++code;
    if (!*byte || code == 0xff) {
      *codep = code, code = 1, codep = encode;
      if (!*byte || length) ++encode;
    }

where `length` inside the body is the number of bytes after the current one
(the loop header is `for (...; length--; ++byte)`).  After the loop the C
code runs `*codep = code; return encode - buffer;`, which is the base case. -/
def encLoop : List Nat → Nat → Nat → Nat → (Nat → Option Nat) → (Nat → Option Nat) × Nat
  | [], pos, codep, code, buf => (wr buf codep code, pos)
  | b :: rest, pos, codep, code, buf =>
    let v := b % 256
    let pos1 := if v ≠ 0 then pos + 1 else pos
    let code1 := if v ≠ 0 then (code + 1) % 256 else code
    let buf1 := if v ≠ 0 then wr buf pos v else buf
    if v = 0 ∨ code1 = 255 then
      encLoop rest (if v = 0 ∨ rest ≠ [] then pos1 + 1 else pos1) pos1 1 (wr buf1 codep code1)
    else
      encLoop rest pos1 codep code1 buf1

/-- `cobsEncode` on the non-null path: `encode = buffer; codep = encode++;
code = 1;` then the loop.  Result: (final buffer, returned byte count). -/
def cobsEncode (d : List Nat) : (Nat → Option Nat) × Nat :=
  encLoop d 1 0 1 (fun _ => none)

/-- The decoder loop of `cobsDecode`.

State: remaining input, `code` (last code byte read, starts `0xff`),
`block` (bytes left to copy in the current block, starts 0), output bytes
written so far.  Mirrors the C body (the `--block` of the `for` header is
folded into each branch; `break` on a zero code skips it):

    if (block) *decode++ = *byte++;
    else {
      if (code != 0xff) *decode++ = 0;
      block = code = *byte++;
      if (code == 0x00) break;
    } -/
def decLoop : List Nat → Nat → Nat → List Nat → List Nat
  | [], _, _, out => out
  | b :: rest, code, block, out =>
    if block ≠ 0 then decLoop rest code (block - 1) (out ++ [b % 256])
    else
      let out1 := if code ≠ 255 then out ++ [0] else out
      let c := b % 256
      if c = 0 then out1 else decLoop rest c (c - 1) out1

/-- `cobsDecode` on the non-null path: the list of bytes written to the
output buffer, in order (its length is the returned count). -/
def cobsDecode (d : List Nat) : List Nat :=
  decLoop d 255 0 []

/-- `maxCobsEncodedLength`: `data_length + data_length / 254 + 1`. -/
def maxCobsEncodedLength (data_length : Nat) : Nat :=
  data_length + data_length / 254 + 1

/-- `cobsEncode` with its null-pointer guard: `data = none` models
`data == NULL`, `buffer = false` models `buffer == NULL`; on that path the
function returns 0 having written nothing. -/
def cobsEncodeC (data : Option (List Nat)) (buffer : Bool) : (Nat → Option Nat) × Nat :=
  match data, buffer with
  | some d, true => cobsEncode d
  | _, _ => (fun _ => none, 0)

/-- `cobsDecode` with its null-pointer guard. -/
def cobsDecodeC (data : Option (List Nat)) (buffer : Bool) : List Nat :=
  match data, buffer with
  | some d, true => cobsDecode d
  | _, _ => []

/-- The encoder's logical output: the first `ret` cells of the output
buffer, where `ret` is the count `cobsEncode` returns (an unwritten cell
reads as 0). -/
def encOut (d : List Nat) : List Nat :=
  (List.range (cobsEncode d).2).map (fun i => ((cobsEncode d).1 i).getD 0)

/-- Modelled from the spec (claim C4's reading of the block-closing rule):
identical to `encLoop` except that the new code slot is reserved
"*unless* this is a zero-terminated block at the very end of input with no
more bytes remaining", i.e. reserve iff `¬(v = 0 ∧ rest = [])`. -/
def encLoopClaimed : List Nat → Nat → Nat → Nat → (Nat → Option Nat) → (Nat → Option Nat) × Nat
  | [], pos, codep, code, buf => (wr buf codep code, pos)
  | b :: rest, pos, codep, code, buf =>
    let v := b % 256
    let pos1 := if v ≠ 0 then pos + 1 else pos
    let code1 := if v ≠ 0 then (code + 1) % 256 else code
    let buf1 := if v ≠ 0 then wr buf pos v else buf
    if v = 0 ∨ code1 = 255 then
      encLoopClaimed rest (if ¬(v = 0 ∧ rest = []) then pos1 + 1 else pos1) pos1 1
        (wr buf1 codep code1)
    else
      encLoopClaimed rest pos1 codep code1 buf1

/-- The encoder as claim C4 describes it. -/
def cobsEncodeClaimed (d : List Nat) : (Nat → Option Nat) × Nat :=
  encLoopClaimed d 1 0 1 (fun _ => none)

/-- The block-closing rule as amended: reserve a new code slot except when
the block being closed is a full block (closed because the running code
reached 0xFF, i.e. the current byte is non-zero) at the very end of the
input, i.e. reserve iff `¬(v ≠ 0 ∧ rest = [])`. -/
def encLoopAmended : List Nat → Nat → Nat → Nat → (Nat → Option Nat) → (Nat → Option Nat) × Nat
  | [], pos, codep, code, buf => (wr buf codep code, pos)
  | b :: rest, pos, codep, code, buf =>
    let v := b % 256
    let pos1 := if v ≠ 0 then pos + 1 else pos
    let code1 := if v ≠ 0 then (code + 1) % 256 else code
    let buf1 := if v ≠ 0 then wr buf pos v else buf
    if v = 0 ∨ code1 = 255 then
      encLoopAmended rest (if ¬(v ≠ 0 ∧ rest = []) then pos1 + 1 else pos1) pos1 1
        (wr buf1 codep code1)
    else
      encLoopAmended rest pos1 codep code1 buf1

/-- The encoder with the amended block-closing rule. -/
def cobsEncodeAmended (d : List Nat) : (Nat → Option Nat) × Nat :=
  encLoopAmended d 1 0 1 (fun _ => none)

/-- Proof device: block decomposition of the encoder's write stream.
`encFAux fuel d = (w, e)` where `w` is the logical output (the encoder's
write stream up to the returned length) and `e` is the extra write the
encoder makes past the returned length (`[1]` exactly when the input ends
with a full 254-byte literal block, else `[]`).  `fuel` bounds the
recursion depth; every use supplies `fuel > d.length`. -/
def encFAux : Nat → List Nat → List Nat × List Nat
  | 0, _ => ([], [])
  | fuel + 1, d =>
    let pRaw := (d.takeWhile (fun b => b % 256 != 0)).take 254
    let p := pRaw.map (fun b => b % 256)
    match d.drop pRaw.length with
    | [] => if pRaw.length = 254 then (255 :: p, [1]) else ((pRaw.length + 1) :: p, [])
    | x :: rest' =>
      if pRaw.length = 254 then
        (255 :: p ++ (encFAux fuel (x :: rest')).1, (encFAux fuel (x :: rest')).2)
      else
        ((pRaw.length + 1) :: p ++ (encFAux fuel rest').1, (encFAux fuel rest').2)

/-- The block decomposition with enough fuel. -/
def encF (d : List Nat) : List Nat × List Nat :=
  encFAux (d.length + 1) d

/-! ### Buffer algebra -/

theorem wr_wr_comm (buf : Nat → Option Nat) (i j v v' : Nat) (h : j ≠ i) :
    wr (wr buf i v') j v = wr (wr buf j v) i v' := by
  funext k
  simp only [wr]
  by_cases hk : k = j <;> by_cases hk' : k = i <;> simp_all

theorem writeSeq_append (a : List Nat) :
    ∀ (b : List Nat) (buf : Nat → Option Nat) (i : Nat),
      writeSeq buf i (a ++ b) = writeSeq (writeSeq buf i a) (i + a.length) b := by
  induction a with
  | nil => intro b buf i; simp [writeSeq]
  | cons v vs ih =>
    intro b buf i
    show writeSeq (wr buf i v) (i + 1) (vs ++ b) =
      writeSeq (writeSeq (wr buf i v) (i + 1) vs) (i + (vs.length + 1)) b
    rw [ih]
    have h1 : i + 1 + vs.length = i + (vs.length + 1) := by omega
    rw [h1]

theorem wr_writeSeq_comm (ws : List Nat) (buf : Nat → Option Nat) (i j v : Nat) (h : j < i) :
    wr (writeSeq buf i ws) j v = writeSeq (wr buf j v) i ws := by
  induction ws generalizing buf i with
  | nil => simp [writeSeq]
  | cons w ws ih =>
    simp only [writeSeq]
    rw [ih _ _ (by omega), wr_wr_comm _ _ _ _ _ (by omega)]

theorem writeSeq_apply (ws : List Nat) :
    ∀ (buf : Nat → Option Nat) (i j : Nat),
      writeSeq buf i ws j = if i ≤ j ∧ j - i < ws.length then ws[j - i]? else buf j := by
  induction ws with
  | nil => intro buf i j; simp [writeSeq]
  | cons w ws ih =>
    intro buf i j
    show writeSeq (wr buf i w) (i + 1) ws j = _
    rw [ih]
    simp only [List.length_cons]
    by_cases hji : j = i
    · subst hji
      rw [if_neg (by omega), if_pos (by constructor <;> omega)]
      simp [wr, Nat.sub_self]
    · by_cases h1 : i + 1 ≤ j ∧ j - (i + 1) < ws.length
      · rw [if_pos h1, if_pos (by omega)]
        have he : j - i = (j - (i + 1)) + 1 := by omega
        rw [he, List.getElem?_cons_succ]
      · rw [if_neg h1, if_neg (by omega)]
        simp [wr, hji]

/-! ### Simple loop bounds -/

theorem encLoop_pos_le (l : List Nat) :
    ∀ pos codep code buf, pos ≤ (encLoop l pos codep code buf).2 := by
  induction l with
  | nil => intro pos codep code buf; exact le_refl _
  | cons b rest ih =>
    intro pos codep code buf
    simp only [encLoop]
    repeat' split
    all_goals refine le_trans ?_ (ih _ _ _ _)
    all_goals omega

theorem decLoop_length_le (l : List Nat) :
    ∀ code block out, (decLoop l code block out).length ≤ out.length + l.length := by
  induction l with
  | nil => intro code block out; simp [decLoop]
  | cons b rest ih =>
    intro code block out
    simp only [decLoop, List.length_cons]
    by_cases hb : block ≠ 0
    · rw [if_pos hb]
      have h := ih code (block - 1) (out ++ [b % 256])
      simp only [List.length_append, List.length_cons, List.length_nil] at h
      omega
    · rw [if_neg hb]
      by_cases hc : b % 256 = 0
      · rw [if_pos hc]
        by_cases h255 : code ≠ 255
        · rw [if_pos h255]
          simp only [List.length_append, List.length_cons, List.length_nil]
          omega
        · rw [if_neg h255]; omega
      · rw [if_neg hc]
        have h := ih (b % 256) (b % 256 - 1) (if code ≠ 255 then out ++ [0] else out)
        by_cases h255 : code ≠ 255
        · rw [if_pos h255]
          rw [if_pos h255] at h
          simp only [List.length_append, List.length_cons, List.length_nil] at h
          omega
        · rw [if_neg h255]
          rw [if_neg h255] at h
          omega

/-! ### Striding the encoder across a run of non-zero bytes -/

theorem encLoop_stride (pr : List Nat) :
    ∀ l2 pos codep code buf, (∀ b ∈ pr, b % 256 ≠ 0) → code + pr.length ≤ 254 →
      encLoop (pr ++ l2) pos codep code buf =
        encLoop l2 (pos + pr.length) codep (code + pr.length)
          (writeSeq buf pos (pr.map (fun b => b % 256))) := by
  induction pr with
  | nil => intro l2 pos codep code buf _ _; simp [writeSeq]
  | cons b pr ih =>
    intro l2 pos codep code buf hnz hle
    have hv : b % 256 ≠ 0 := hnz b (List.mem_cons_self b pr)
    simp only [List.length_cons] at hle
    have hcode : (code + 1) % 256 = code + 1 := Nat.mod_eq_of_lt (by omega)
    have hno : ¬(b % 256 = 0 ∨ code + 1 = 255) := by omega
    show encLoop (b :: (pr ++ l2)) pos codep code buf = _
    simp only [encLoop, if_pos hv, hcode]
    rw [if_neg hno]
    rw [ih l2 (pos + 1) codep (code + 1) (wr buf pos (b % 256))
      (fun x hx => hnz x (List.mem_cons_of_mem b hx)) (by omega)]
    simp only [List.map_cons, writeSeq, List.length_cons]
    have h1 : pos + (pr.length + 1) = pos + 1 + pr.length := by omega
    have h2 : code + (pr.length + 1) = code + 1 + pr.length := by omega
    rw [h1, h2]

theorem decLoop_stride (pr : List Nat) :
    ∀ rest c out, decLoop (pr ++ rest) c pr.length out =
      decLoop rest c 0 (out ++ pr.map (fun b => b % 256)) := by
  induction pr with
  | nil => intro rest c out; simp
  | cons y pr ih =>
    intro rest c out
    show decLoop (y :: (pr ++ rest)) c (pr.length + 1) out = _
    simp only [decLoop]
    rw [if_pos (Nat.succ_ne_zero pr.length)]
    simp only [Nat.add_sub_cancel]
    rw [ih rest c (out ++ [y % 256])]
    simp [List.append_assoc]

/-! ### Splitting the input at its first literal run -/

theorem takeWhile_take_append_drop (q : Nat → Bool) (d : List Nat) :
    ∀ n : Nat, (d.takeWhile q).take n ++ d.drop ((d.takeWhile q).take n).length = d := by
  induction d with
  | nil => intro n; simp
  | cons a l ih =>
    intro n
    by_cases hqa : q a
    · rw [List.takeWhile_cons_of_pos hqa]
      match n with
      | 0 => simp
      | n + 1 =>
        simp only [List.take_succ_cons, List.length_cons, List.drop_succ_cons, List.cons_append]
        rw [ih n]
    · rw [List.takeWhile_cons_of_neg hqa]
      simp

theorem drop_takeWhile_length (q : Nat → Bool) (d : List Nat) :
    d.drop (d.takeWhile q).length = d.dropWhile q := by
  induction d with
  | nil => rfl
  | cons a l ih =>
    by_cases hqa : q a
    · rw [List.takeWhile_cons_of_pos hqa, List.dropWhile_cons_of_pos hqa]
      simp only [List.length_cons, List.drop_succ_cons]
      exact ih
    · rw [List.takeWhile_cons_of_neg hqa, List.dropWhile_cons_of_neg hqa]
      rfl

theorem dropWhile_head_false (q : Nat → Bool) :
    ∀ (l : List Nat) (x : Nat) (r : List Nat), l.dropWhile q = x :: r → q x = false := by
  intro l
  induction l with
  | nil => intro x r h; simp [List.dropWhile] at h
  | cons a l ih =>
    intro x r h
    by_cases hqa : q a
    · rw [List.dropWhile_cons_of_pos hqa] at h
      exact ih x r h
    · rw [List.dropWhile_cons_of_neg hqa] at h
      cases h
      simpa using hqa

theorem mem_firstRun_nonzero (d : List Nat) (b : Nat)
    (hb : b ∈ (d.takeWhile (fun v => v % 256 != 0)).take 254) : b % 256 ≠ 0 := by
  have hb2 : b ∈ d.takeWhile (fun v => v % 256 != 0) := List.take_subset _ _ hb
  have hq := List.mem_takeWhile_imp hb2
  simpa using hq

theorem firstRun_short_next_zero (d : List Nat) (x : Nat) (r : List Nat)
    (hk : ((d.takeWhile (fun v => v % 256 != 0)).take 254).length ≠ 254)
    (hd : d.drop ((d.takeWhile (fun v => v % 256 != 0)).take 254).length = x :: r) :
    x % 256 = 0 := by
  have hlt : (d.takeWhile (fun v => v % 256 != 0)).length < 254 := by
    have h1 := List.length_take 254 (d.takeWhile (fun v => v % 256 != 0))
    rcases Nat.le_total (d.takeWhile (fun v => v % 256 != 0)).length 254 with h | h
    · rcases Nat.lt_or_ge (d.takeWhile (fun v => v % 256 != 0)).length 254 with h2 | h2
      · exact h2
      · exact absurd (by rw [h1]; omega) hk
    · exact absurd (by rw [h1]; omega) hk
  have hpr : (d.takeWhile (fun v => v % 256 != 0)).take 254 = d.takeWhile (fun v => v % 256 != 0) :=
    List.take_of_length_le (by omega)
  rw [hpr, drop_takeWhile_length] at hd
  have hx := dropWhile_head_false _ d x r hd
  simpa using hx

/-! ### The encoder consuming one full 254-byte literal block -/

theorem encLoop_full_step (pRaw : List Nat) (hk : pRaw.length = 254)
    (hmem : ∀ b ∈ pRaw, b % 256 ≠ 0) (l2 : List Nat) (codep : Nat) (buf : Nat → Option Nat) :
    encLoop (pRaw ++ l2) (codep + 1) codep 1 buf =
      encLoop l2 (if l2 = [] then codep + 255 else codep + 255 + 1) (codep + 255) 1
        (writeSeq buf codep (255 :: pRaw.map (fun b => b % 256))) := by
  have hne : pRaw ≠ [] := by intro hcon; rw [hcon] at hk; simp at hk
  have hqb : pRaw.dropLast ++ [pRaw.getLast hne] = pRaw := List.dropLast_append_getLast hne
  have hql : pRaw.dropLast.length = 253 := by rw [List.length_dropLast, hk]
  have hbl : pRaw.getLast hne % 256 ≠ 0 := hmem _ (List.getLast_mem hne)
  have hmemq : ∀ b ∈ pRaw.dropLast, b % 256 ≠ 0 := by
    intro b hb
    exact hmem b (List.dropLast_subset _ hb)
  conv_lhs => rw [← hqb]
  rw [List.append_assoc, List.singleton_append]
  rw [encLoop_stride pRaw.dropLast (pRaw.getLast hne :: l2) (codep + 1) codep 1 buf hmemq
    (by omega)]
  rw [hql]
  simp only [encLoop, if_pos hbl]
  rw [if_pos (Or.inr trivial : pRaw.getLast hne % 256 = 0 ∨ True)]
  have hbufeq : wr (wr (writeSeq buf (codep + 1) (pRaw.dropLast.map (fun b => b % 256)))
        (codep + 1 + 253) (pRaw.getLast hne % 256)) codep 255 =
      writeSeq buf codep (255 :: pRaw.map (fun b => b % 256)) := by
    conv_rhs => rw [← hqb]
    rw [List.map_append]
    show _ = writeSeq (wr buf codep 255) (codep + 1)
      (pRaw.dropLast.map (fun b => b % 256) ++ [pRaw.getLast hne % 256])
    rw [writeSeq_append]
    simp only [List.length_map, hql]
    show _ = wr (writeSeq (wr buf codep 255) (codep + 1) (pRaw.dropLast.map (fun b => b % 256)))
      (codep + 1 + 253) (pRaw.getLast hne % 256)
    rw [← wr_writeSeq_comm _ buf (codep + 1) codep 255 (by omega)]
    rw [wr_wr_comm _ _ _ _ _ (by omega : codep ≠ codep + 1 + 253)]
  by_cases hl2 : l2 = []
  · rw [if_neg (by simp [hbl, hl2]), if_pos hl2, hbufeq]
  · rw [if_pos (Or.inr hl2), if_neg hl2, hbufeq]

/-! ### The encoder loop realizes the block decomposition -/

theorem writeSeq_block (buf : Nat → Option Nat) (codep c0 : Nat) (p w1 e1 : List Nat) :
    writeSeq buf codep ((c0 :: p ++ w1) ++ e1) =
      writeSeq (writeSeq (wr buf codep c0) (codep + 1) p) (codep + 1 + p.length) (w1 ++ e1) := by
  show writeSeq (wr buf codep c0) (codep + 1) ((p ++ w1) ++ e1) = _
  rw [List.append_assoc, writeSeq_append]

theorem encLoop_eq_encFAux :
    ∀ (fuel : Nat) (d : List Nat), d.length < fuel → ∀ (codep : Nat) (buf : Nat → Option Nat),
      encLoop d (codep + 1) codep 1 buf =
        (writeSeq buf codep ((encFAux fuel d).1 ++ (encFAux fuel d).2),
          codep + (encFAux fuel d).1.length) := by
  intro fuel
  induction fuel with
  | zero => intro d h; exact absurd h (Nat.not_lt_zero _)
  | succ f ih =>
    intro d hlen codep buf
    have hsplit := takeWhile_take_append_drop (fun v => v % 256 != 0) d 254
    have hmem : ∀ b ∈ (d.takeWhile (fun v => v % 256 != 0)).take 254, b % 256 ≠ 0 :=
      fun b hb => mem_firstRun_nonzero d b hb
    have hk254 : ((d.takeWhile (fun v => v % 256 != 0)).take 254).length ≤ 254 :=
      List.length_take_le _ _
    rcases hE : encFAux (f + 1) d with ⟨w, e⟩
    simp only [encFAux] at hE
    set pR := (d.takeWhile (fun v => v % 256 != 0)).take 254 with hpR
    split at hE
    · rename_i heq
      by_cases hkk : pR.length = 254
      · rw [if_pos hkk] at hE
        injection hE with hw he
        subst hw; subst he
        have hdp : d = pR := by rw [← hsplit, heq, List.append_nil]
        conv_lhs => rw [hdp, ← List.append_nil pR]
        rw [encLoop_full_step pR hkk hmem [] codep buf, if_pos (rfl : ([] : List Nat) = [])]
        rw [writeSeq_append]
        simp only [encLoop, writeSeq, List.length_cons, List.length_map, hkk]
      · rw [if_neg hkk] at hE
        injection hE with hw he
        subst hw; subst he
        have hdp : d = pR := by rw [← hsplit, heq, List.append_nil]
        rw [List.append_nil]
        conv_lhs => rw [hdp, ← List.append_nil pR]
        rw [encLoop_stride pR [] (codep + 1) codep 1 buf hmem (by omega)]
        simp only [encLoop, writeSeq, List.length_cons, List.length_map, Prod.mk.injEq]
        constructor
        · rw [← wr_writeSeq_comm _ buf (codep + 1) codep (pR.length + 1) (by omega),
            Nat.add_comm 1 pR.length]
        · omega
    · rename_i x rest' heq
      have hdp : d = pR ++ x :: rest' := by rw [← hsplit, heq]
      have hdlen : d.length = pR.length + rest'.length + 1 := by
        rw [hdp]; simp only [List.length_append, List.length_cons]; omega
      by_cases hkk : pR.length = 254
      · rw [if_pos hkk] at hE
        injection hE with hw he
        subst hw; subst he
        conv_lhs => rw [hdp]
        rw [encLoop_full_step pR hkk hmem (x :: rest') codep buf,
          if_neg (List.cons_ne_nil x rest')]
        rw [ih (x :: rest') (by simp only [List.length_cons]; omega) (codep + 255)]
        simp only [Prod.mk.injEq]
        constructor
        · rw [writeSeq_block]
          have hpos : codep + 1 + (List.map (fun b => b % 256) pR).length = codep + 255 := by
            simp only [List.length_map, hkk]
          rw [hpos]
          rfl
        · simp only [List.length_cons, List.length_append, List.length_map, hkk]; omega
      · rw [if_neg hkk] at hE
        injection hE with hw he
        subst hw; subst he
        have hx0 : x % 256 = 0 := firstRun_short_next_zero d x rest' (by rw [← hpR]; exact hkk) heq
        conv_lhs => rw [hdp]
        rw [encLoop_stride pR (x :: rest') (codep + 1) codep 1 buf hmem (by omega)]
        simp only [encLoop, hx0, ne_eq, not_true_eq_false, true_or, if_true, if_false,
          ite_true, ite_false]
        rw [ih rest' (by omega)]
        simp only [Prod.mk.injEq]
        constructor
        · rw [writeSeq_block, List.length_map]
          rw [← wr_writeSeq_comm _ buf (codep + 1) codep (pR.length + 1) (by omega),
            Nat.add_comm 1 pR.length]
        · simp only [List.length_cons, List.length_append, List.length_map]; omega

/-! ### Facts about the block decomposition -/

theorem encFAux_entries :
    ∀ (fuel : Nat) (d : List Nat), d.length < fuel →
      ∀ x, x ∈ (encFAux fuel d).1 ++ (encFAux fuel d).2 → 1 ≤ x ∧ x < 256 := by
  intro fuel
  induction fuel with
  | zero => intro d h; exact absurd h (Nat.not_lt_zero _)
  | succ f ih =>
    intro d hlen
    have hsplit := takeWhile_take_append_drop (fun v => v % 256 != 0) d 254
    have hmem : ∀ b ∈ (d.takeWhile (fun v => v % 256 != 0)).take 254, b % 256 ≠ 0 :=
      fun b hb => mem_firstRun_nonzero d b hb
    have hk254 := List.length_take_le 254 (d.takeWhile (fun v => v % 256 != 0))
    rcases hE : encFAux (f + 1) d with ⟨w, e⟩
    simp only [encFAux] at hE
    set pR := (d.takeWhile (fun v => v % 256 != 0)).take 254 with hpR
    split at hE
    · rename_i heq
      by_cases hkk : pR.length = 254
      · rw [if_pos hkk] at hE
        injection hE with hw he; subst hw; subst he
        intro x hx
        have hx2 : x ∈ (255 :: List.map (fun b => b % 256) pR) ++ [1] := hx
        rcases List.mem_append.mp hx2 with hx3 | hx3
        · rcases List.mem_cons.mp hx3 with rfl | hx4
          · exact ⟨by omega, by omega⟩
          · rcases List.mem_map.mp hx4 with ⟨b, hb, rfl⟩
            exact ⟨by have := hmem b hb; omega, Nat.mod_lt b (by omega)⟩
        · have hx4 : x = 1 := List.mem_singleton.mp hx3
          exact ⟨by omega, by omega⟩
      · rw [if_neg hkk] at hE
        injection hE with hw he; subst hw; subst he
        intro x hx
        have hx2 : x ∈ ((pR.length + 1) :: List.map (fun b => b % 256) pR) ++ [] := hx
        rw [List.append_nil] at hx2
        rcases List.mem_cons.mp hx2 with rfl | hx4
        · exact ⟨by omega, by omega⟩
        · rcases List.mem_map.mp hx4 with ⟨b, hb, rfl⟩
          exact ⟨by have := hmem b hb; omega, Nat.mod_lt b (by omega)⟩
    · rename_i x0 rest' heq
      have hdp : d = pR ++ x0 :: rest' := by rw [← hsplit, heq]
      have hdlen : d.length = pR.length + rest'.length + 1 := by
        rw [hdp]; simp only [List.length_append, List.length_cons]; omega
      by_cases hkk : pR.length = 254
      · rw [if_pos hkk] at hE
        injection hE with hw he; subst hw; subst he
        intro x hx
        have hx2 : x ∈ (255 :: (List.map (fun b => b % 256) pR ++
            (encFAux f (x0 :: rest')).1)) ++ (encFAux f (x0 :: rest')).2 := hx
        rcases List.mem_append.mp hx2 with hx3 | hx3
        · rcases List.mem_cons.mp hx3 with rfl | hx4
          · exact ⟨by omega, by omega⟩
          · rcases List.mem_append.mp hx4 with hx5 | hx5
            · rcases List.mem_map.mp hx5 with ⟨b, hb, rfl⟩
              exact ⟨by have := hmem b hb; omega, Nat.mod_lt b (by omega)⟩
            · exact ih (x0 :: rest') (by simp only [List.length_cons]; omega) x
                (List.mem_append_left _ hx5)
        · exact ih (x0 :: rest') (by simp only [List.length_cons]; omega) x
            (List.mem_append_right _ hx3)
      · rw [if_neg hkk] at hE
        injection hE with hw he; subst hw; subst he
        intro x hx
        have hx2 : x ∈ ((pR.length + 1) :: (List.map (fun b => b % 256) pR ++
            (encFAux f rest').1)) ++ (encFAux f rest').2 := hx
        rcases List.mem_append.mp hx2 with hx3 | hx3
        · rcases List.mem_cons.mp hx3 with rfl | hx4
          · exact ⟨by omega, by omega⟩
          · rcases List.mem_append.mp hx4 with hx5 | hx5
            · rcases List.mem_map.mp hx5 with ⟨b, hb, rfl⟩
              exact ⟨by have := hmem b hb; omega, Nat.mod_lt b (by omega)⟩
            · exact ih rest' (by omega) x (List.mem_append_left _ hx5)
        · exact ih rest' (by omega) x (List.mem_append_right _ hx3)

theorem encFAux_length_pos :
    ∀ (fuel : Nat) (d : List Nat), d.length < fuel → 1 ≤ (encFAux fuel d).1.length := by
  intro fuel
  induction fuel with
  | zero => intro d h; exact absurd h (Nat.not_lt_zero _)
  | succ f _ =>
    intro d _
    rcases hE : encFAux (f + 1) d with ⟨w, e⟩
    simp only [encFAux] at hE
    split at hE
    · split at hE
      · injection hE with hw he
        subst hw
        exact Nat.succ_le_succ (Nat.zero_le _)
      · injection hE with hw he
        subst hw
        exact Nat.succ_le_succ (Nat.zero_le _)
    · split at hE
      · injection hE with hw he
        subst hw
        exact Nat.succ_le_succ (Nat.zero_le _)
      · injection hE with hw he
        subst hw
        exact Nat.succ_le_succ (Nat.zero_le _)

theorem encFAux_length_sharp :
    ∀ (fuel : Nat) (d : List Nat), d.length < fuel → 1 ≤ d.length →
      (encFAux fuel d).1.length ≤ d.length + (d.length + 253) / 254 := by
  intro fuel
  induction fuel with
  | zero => intro d h; exact absurd h (Nat.not_lt_zero _)
  | succ f ih =>
    intro d hlen hpos
    have hsplit := takeWhile_take_append_drop (fun v => v % 256 != 0) d 254
    have hk254 := List.length_take_le 254 (d.takeWhile (fun v => v % 256 != 0))
    rcases hE : encFAux (f + 1) d with ⟨w, e⟩
    simp only [encFAux] at hE
    set pR := (d.takeWhile (fun v => v % 256 != 0)).take 254 with hpR
    split at hE
    · rename_i heq
      have hdl : d.length = pR.length := by
        conv_lhs => rw [← hsplit, heq]
        simp
      by_cases hkk : pR.length = 254
      · rw [if_pos hkk] at hE
        injection hE with hw he; subst hw
        simp only [List.length_cons, List.length_map]
        omega
      · rw [if_neg hkk] at hE
        injection hE with hw he; subst hw
        simp only [List.length_cons, List.length_map]
        omega
    · rename_i x0 rest' heq
      have hdp : d = pR ++ x0 :: rest' := by rw [← hsplit, heq]
      have hdl : d.length = pR.length + rest'.length + 1 := by
        rw [hdp]; simp only [List.length_append, List.length_cons]; omega
      by_cases hkk : pR.length = 254
      · rw [if_pos hkk] at hE
        injection hE with hw he; subst hw
        have hrec := ih (x0 :: rest') (by simp only [List.length_cons]; omega)
          (by simp only [List.length_cons]; omega)
        simp only [List.length_cons] at hrec
        simp only [List.length_cons, List.length_append, List.length_map]
        omega
      · rw [if_neg hkk] at hE
        injection hE with hw he; subst hw
        simp only [List.length_cons, List.length_append, List.length_map]
        rcases Nat.eq_zero_or_pos rest'.length with hz | hp
        · have : rest' = [] := List.eq_nil_of_length_eq_zero hz
          subst this
          have h0 : (encFAux f ([] : List Nat)).1.length ≤ 1 := by
            match f with
            | 0 => simp [encFAux]
            | f + 1 => simp [encFAux]
          omega
        · have hrec := ih rest' (by omega) (by omega)
          omega

theorem encFAux_total_length :
    ∀ (fuel : Nat) (d : List Nat), d.length < fuel →
      (encFAux fuel d).1.length + (encFAux fuel d).2.length ≤
        d.length + d.length / 254 + 1 := by
  intro fuel
  induction fuel with
  | zero => intro d h; exact absurd h (Nat.not_lt_zero _)
  | succ f ih =>
    intro d hlen
    have hsplit := takeWhile_take_append_drop (fun v => v % 256 != 0) d 254
    have hk254 := List.length_take_le 254 (d.takeWhile (fun v => v % 256 != 0))
    rcases hE : encFAux (f + 1) d with ⟨w, e⟩
    simp only [encFAux] at hE
    set pR := (d.takeWhile (fun v => v % 256 != 0)).take 254 with hpR
    split at hE
    · rename_i heq
      have hdl : d.length = pR.length := by
        conv_lhs => rw [← hsplit, heq]
        simp
      by_cases hkk : pR.length = 254
      · rw [if_pos hkk] at hE
        injection hE with hw he; subst hw; subst he
        simp only [List.length_cons, List.length_map, List.length_nil]
        omega
      · rw [if_neg hkk] at hE
        injection hE with hw he; subst hw; subst he
        simp only [List.length_cons, List.length_map, List.length_nil]
        omega
    · rename_i x0 rest' heq
      have hdp : d = pR ++ x0 :: rest' := by rw [← hsplit, heq]
      have hdl : d.length = pR.length + rest'.length + 1 := by
        rw [hdp]; simp only [List.length_append, List.length_cons]; omega
      by_cases hkk : pR.length = 254
      · rw [if_pos hkk] at hE
        injection hE with hw he; subst hw; subst he
        have hrec := ih (x0 :: rest') (by simp only [List.length_cons]; omega)
        simp only [List.length_cons] at hrec
        simp only [List.length_cons, List.length_append, List.length_map]
        omega
      · rw [if_neg hkk] at hE
        injection hE with hw he; subst hw; subst he
        have hrec := ih rest' (by omega)
        simp only [List.length_cons, List.length_append, List.length_map]
        omega

/-! ### Decoding the encoder's logical output -/

theorem mod256_map_idem (l : List Nat) :
    (l.map (fun b => b % 256)).map (fun b => b % 256) = l.map (fun b => b % 256) := by
  induction l with
  | nil => rfl
  | cons a l ih =>
    simp only [List.map_cons]
    rw [ih, Nat.mod_mod_of_dvd a dvd_rfl]

theorem decLoop_stride_hyp (pr rest : List Nat) (c blk : Nat) (out : List Nat)
    (hb : blk = pr.length) :
    decLoop (pr ++ rest) c blk out = decLoop rest c 0 (out ++ pr.map (fun b => b % 256)) := by
  subst hb
  exact decLoop_stride pr rest c out

theorem decLoop_copy_hyp (pr : List Nat) (c blk : Nat) (out : List Nat)
    (hb : blk = pr.length) :
    decLoop pr c blk out = out ++ pr.map (fun b => b % 256) := by
  subst hb
  have h := decLoop_stride pr [] c out
  rw [List.append_nil] at h
  rw [h]
  rfl

theorem decLoop_boundary (c0 : Nat) (L : List Nat) (c : Nat) (out : List Nat)
    (h0 : c0 % 256 ≠ 0) :
    decLoop (c0 :: L) c 0 out =
      decLoop L (c0 % 256) (c0 % 256 - 1) (if c = 255 then out else out ++ [0]) := by
  simp only [decLoop, ne_eq, eq_self_iff_true, not_true, if_false]
  rw [if_neg h0]
  congr 1
  by_cases hc : c = 255 <;> simp [hc]

theorem decLoop_encFAux :
    ∀ (fuel : Nat) (d : List Nat), d.length < fuel → ∀ (c : Nat) (out : List Nat),
      1 ≤ c → c ≤ 255 →
      decLoop (encFAux fuel d).1 c 0 out =
        (if c = 255 then out else out ++ [0]) ++ d.map (fun b => b % 256) := by
  intro fuel
  induction fuel with
  | zero => intro d h; exact absurd h (Nat.not_lt_zero _)
  | succ f ih =>
    intro d hlen c out hc1 hc255
    have hsplit := takeWhile_take_append_drop (fun v => v % 256 != 0) d 254
    have hk254 := List.length_take_le 254 (d.takeWhile (fun v => v % 256 != 0))
    rcases hE : encFAux (f + 1) d with ⟨w, e⟩
    simp only [encFAux] at hE
    set pR := (d.takeWhile (fun v => v % 256 != 0)).take 254 with hpR
    split at hE
    · rename_i heq
      have hdp : d = pR := by rw [← hsplit, heq, List.append_nil]
      by_cases hkk : pR.length = 254
      · rw [if_pos hkk] at hE
        injection hE with hw he; subst hw; subst he
        rw [decLoop_boundary 255 _ c out (by omega)]
        rw [decLoop_copy_hyp _ _ _ _ (by rw [List.length_map]; omega)]
        rw [mod256_map_idem]
        conv_rhs => rw [hdp]
      · rw [if_neg hkk] at hE
        injection hE with hw he; subst hw; subst he
        rw [decLoop_boundary (pR.length + 1) _ c out (by omega)]
        rw [decLoop_copy_hyp _ _ _ _ (by rw [List.length_map]; omega)]
        rw [mod256_map_idem]
        conv_rhs => rw [hdp]
    · rename_i x0 rest' heq
      have hdp : d = pR ++ x0 :: rest' := by rw [← hsplit, heq]
      have hdlen : d.length = pR.length + rest'.length + 1 := by
        rw [hdp]; simp only [List.length_append, List.length_cons]; omega
      by_cases hkk : pR.length = 254
      · rw [if_pos hkk] at hE
        injection hE with hw he; subst hw; subst he
        show decLoop (255 :: (List.map (fun b => b % 256) pR ++ (encFAux f (x0 :: rest')).1))
          c 0 out = _
        rw [decLoop_boundary 255 _ c out (by omega)]
        rw [decLoop_stride_hyp _ _ _ _ _ (by rw [List.length_map]; omega)]
        rw [mod256_map_idem]
        rw [ih (x0 :: rest') (by simp only [List.length_cons]; omega) (255 % 256) _
          (by omega) (by omega)]
        rw [if_pos (by omega : (255 : Nat) % 256 = 255)]
        conv_rhs => rw [hdp]
        rw [List.map_append, ← List.append_assoc]
      · rw [if_neg hkk] at hE
        injection hE with hw he; subst hw; subst he
        have hx0 : x0 % 256 = 0 := firstRun_short_next_zero d x0 rest' (by rw [← hpR]; exact hkk) heq
        show decLoop ((pR.length + 1) :: (List.map (fun b => b % 256) pR ++ (encFAux f rest').1))
          c 0 out = _
        rw [decLoop_boundary (pR.length + 1) _ c out (by omega)]
        rw [decLoop_stride_hyp _ _ _ _ _ (by rw [List.length_map]; omega)]
        rw [mod256_map_idem]
        rw [ih rest' (by omega) ((pR.length + 1) % 256) _ (by omega) (by omega)]
        rw [if_neg (by omega : ¬((pR.length + 1) % 256 = 255))]
        conv_rhs => rw [hdp]
        rw [List.map_append, List.map_cons, hx0]
        rw [List.append_assoc, List.append_assoc, List.singleton_append]

/-! ### Putting the encoder characterization in closed form -/

theorem cobsEncode_eq (d : List Nat) :
    cobsEncode d =
      (writeSeq (fun _ => none) 0 ((encF d).1 ++ (encF d).2), (encF d).1.length) := by
  have h := encLoop_eq_encFAux (d.length + 1) d (by omega) 0 (fun _ => none)
  simpa [cobsEncode, encF] using h

theorem range_map_writeSeq (w e : List Nat) :
    (List.range w.length).map (fun i => (writeSeq (fun _ => none) 0 (w ++ e) i).getD 0) = w := by
  apply List.ext_getElem
  · simp
  · intro i h1 h2
    rw [List.getElem_map, List.getElem_range, writeSeq_apply]
    simp only [Nat.sub_zero]
    rw [if_pos ⟨Nat.zero_le i, by rw [List.length_append]; omega⟩]
    rw [List.getElem?_append, if_pos h2, List.getElem?_eq_getElem h2]
    rfl

theorem encOut_eq (d : List Nat) : encOut d = (encF d).1 := by
  show (List.range (cobsEncode d).2).map (fun i => ((cobsEncode d).1 i).getD 0) = (encF d).1
  rw [cobsEncode_eq]
  exact range_map_writeSeq _ _

/-! ### The all-nonzero worst case -/

theorem takeWhile_replicate_65 (n : Nat) :
    (List.replicate n 65).takeWhile (fun v => v % 256 != 0) = List.replicate n 65 := by
  induction n with
  | zero => rfl
  | succ n ih =>
    rw [List.replicate_succ, List.takeWhile_cons_of_pos (by decide), ih]

theorem encFAux_replicate :
    ∀ (fuel n : Nat), n < fuel → ¬(0 < n ∧ n % 254 = 0) →
      (encFAux fuel (List.replicate n 65)).1.length = n + n / 254 + 1 := by
  intro fuel
  induction fuel with
  | zero => intro n h _; exact absurd h (Nat.not_lt_zero _)
  | succ f ih =>
    intro n hlen hnm
    have hsplit := takeWhile_take_append_drop (fun v => v % 256 != 0) (List.replicate n 65) 254
    rcases hE : encFAux (f + 1) (List.replicate n 65) with ⟨w, e⟩
    simp only [encFAux] at hE
    set pR := ((List.replicate n 65).takeWhile (fun v => v % 256 != 0)).take 254 with hpR
    have hprl : pR.length = min 254 n := by
      rw [hpR, takeWhile_replicate_65, List.take_replicate, List.length_replicate]
    split at hE
    · rename_i heq
      have hdl : (List.replicate n 65).length = pR.length := by
        conv_lhs => rw [← hsplit, heq]
        simp
      rw [List.length_replicate] at hdl
      by_cases hkk : pR.length = 254
      · exact absurd ⟨by omega, by omega⟩ hnm
      · rw [if_neg hkk] at hE
        injection hE with hw he
        subst hw
        simp only [List.length_cons, List.length_map]
        omega
    · rename_i x0 rest' heq
      have hdp : List.replicate n 65 = pR ++ x0 :: rest' := by rw [← hsplit, heq]
      have hdl : n = pR.length + rest'.length + 1 := by
        have h2 := congrArg List.length hdp
        rw [List.length_replicate, List.length_append, List.length_cons] at h2
        omega
      by_cases hkk : pR.length = 254
      · rw [if_pos hkk] at hE
        injection hE with hw he
        subst hw
        have heq2 : List.replicate (n - 254) 65 = x0 :: rest' := by
          have h1 : List.drop pR.length (List.replicate n 65) = x0 :: rest' := heq
          rw [hkk, List.drop_replicate] at h1
          exact h1
        have hrec := ih (n - 254) (by omega) (by omega)
        rw [heq2] at hrec
        simp only [List.length_cons, List.length_append, List.length_map]
        omega
      · exact absurd hdl (by omega)

/-! ### Remaining helper lemmas -/

theorem map_mod_of_lt (l : List Nat) (h : ∀ b ∈ l, b < 256) :
    l.map (fun b => b % 256) = l := by
  induction l with
  | nil => rfl
  | cons a l ih =>
    rw [List.map_cons, Nat.mod_eq_of_lt (h a (List.mem_cons_self a l)),
      ih (fun b hb => h b (List.mem_cons_of_mem a hb))]

set_option maxRecDepth 4096 in
theorem encF_replicate_254 :
    encF (List.replicate 254 65) = (255 :: List.replicate 254 65, [1]) := by
  show encFAux ((List.replicate 254 65).length + 1) (List.replicate 254 65) = _
  rw [List.length_replicate]
  simp [encFAux, takeWhile_replicate_65, List.take_replicate, List.drop_replicate,
    List.map_replicate, List.length_replicate]

theorem encLoopAmended_eq (l : List Nat) :
    ∀ pos codep code buf, encLoopAmended l pos codep code buf = encLoop l pos codep code buf := by
  induction l with
  | nil => intro pos codep code buf; rfl
  | cons b rest ih =>
    intro pos codep code buf
    have hcond : (¬(b % 256 ≠ 0 ∧ rest = [])) ↔ (b % 256 = 0 ∨ rest ≠ []) := by tauto
    simp only [encLoopAmended, encLoop]
    rw [if_congr hcond rfl rfl]
    by_cases hC : b % 256 = 0 ∨ (if b % 256 ≠ 0 then (code + 1) % 256 else code) = 255
    · rw [if_pos hC, if_pos hC, ih]
    · rw [if_neg hC, if_neg hC, ih]

/-! ### Claim theorems -/

/-- Claim C1: round-trip law — for every byte sequence `d` (the non-null
path), decoding the first `ret` bytes of the encoder's output buffer, where
`ret` is the count `cobsEncode` returns, reproduces `d` exactly, both in
byte content and in returned count. -/
theorem cobsEncode_cobsDecode_roundtrip (d : List Nat) (h : ∀ b ∈ d, b < 256) :
    cobsDecode (encOut d) = d ∧ (cobsDecode (encOut d)).length = d.length := by
  have h1 : cobsDecode (encOut d) = d := by
    rw [encOut_eq]
    show decLoop (encFAux (d.length + 1) d).1 255 0 [] = d
    rw [decLoop_encFAux (d.length + 1) d (by omega) 255 [] (by omega) (by omega)]
    rw [if_pos rfl, List.nil_append]
    exact map_mod_of_lt d h
  exact ⟨h1, by rw [h1]⟩

/-- Witness for C1 at the concrete input `[0, 65, 255]`. -/
theorem cobsEncode_cobsDecode_roundtrip_witness :
    (∀ b ∈ [0, 65, 255], b < 256) ∧
      (cobsDecode (encOut [0, 65, 255]) = [0, 65, 255] ∧
        (cobsDecode (encOut [0, 65, 255])).length = [0, 65, 255].length) :=
  ⟨by decide, cobsEncode_cobsDecode_roundtrip [0, 65, 255] (by decide)⟩

/-- Claim C2: no-zero invariant — every cell of the encoder's output buffer
below the returned count was written, and holds a non-zero byte. -/
theorem cobsEncode_no_zero (d : List Nat) (i : Nat) (h : i < (cobsEncode d).2) :
    ∃ v, (cobsEncode d).1 i = some v ∧ v ≠ 0 := by
  rw [cobsEncode_eq] at h
  have h2 : i < (encF d).1.length := h
  show ∃ v, (cobsEncode d).1 i = some v ∧ v ≠ 0
  rw [cobsEncode_eq]
  show ∃ v, writeSeq (fun _ => none) 0 ((encF d).1 ++ (encF d).2) i = some v ∧ v ≠ 0
  rw [writeSeq_apply]
  rw [if_pos ⟨Nat.zero_le i, by rw [List.length_append]; omega⟩]
  simp only [Nat.sub_zero]
  rw [List.getElem?_append, if_pos h2, List.getElem?_eq_getElem h2]
  refine ⟨_, rfl, ?_⟩
  intro hzero
  have hmem2 : (0 : Nat) ∈ (encF d).1 := by
    rw [← hzero]
    exact List.getElem_mem h2
  have hx := encFAux_entries (d.length + 1) d (by omega) 0 (List.mem_append_left _ hmem2)
  omega

/-- Witness for C2 at the concrete input `[0]`, index 0. -/
theorem cobsEncode_no_zero_witness :
    0 < (cobsEncode [0]).2 ∧ ∃ v, (cobsEncode [0]).1 0 = some v ∧ v ≠ 0 :=
  ⟨by decide, cobsEncode_no_zero [0] 0 (by decide)⟩

/-- Claim C3: the count returned by the encoder never exceeds
`maxCobsEncodedLength` of the input length. -/
theorem cobsEncode_length_le_max (d : List Nat) :
    (cobsEncode d).2 ≤ maxCobsEncodedLength d.length := by
  rw [cobsEncode_eq]
  show (encF d).1.length ≤ maxCobsEncodedLength d.length
  rcases Nat.eq_zero_or_pos d.length with h0 | hpos
  · have hnil : d = [] := List.eq_nil_of_length_eq_zero h0
    subst hnil
    decide
  · have h : (encF d).1.length ≤ d.length + (d.length + 253) / 254 :=
      encFAux_length_sharp (d.length + 1) d (by omega) hpos
    unfold maxCobsEncodedLength
    omega

/-- Counterexample to claim C4 as stated: on input `[0]` (a zero-terminated
block at the very end of the input), the claimed rule reserves no new
code slot and returns 1, while the code reserves one and returns 2. -/
theorem cobsEncodeClaimed_cex : (cobsEncodeClaimed [0]).2 ≠ (cobsEncode [0]).2 := by
  decide

/-- Claim C4 as amended: the encoder's block-closing rule reserves a new
code slot except when the block being closed is a full block (the current
byte is non-zero, so the close was triggered by the running code reaching
0xFF) at the very end of the input; the encoder with this rule is
extensionally the source encoder. -/
theorem cobsEncodeAmended_eq (d : List Nat) : cobsEncodeAmended d = cobsEncode d :=
  encLoopAmended_eq d 1 0 1 (fun _ => none)

/-- Counterexample to claim C5 as stated: decoding `{0x02, 0xAA, 0x00, 0xFF}`
does not produce the single byte `{0xAA}`. -/
theorem cobsDecode_delimiter_cex : cobsDecode [2, 170, 0, 255] ≠ [170] := by
  decide

/-- Claim C5 as amended: decoding `{0x02, 0xAA, 0x00, 0xFF}` with length 4
stops at the embedded zero code byte and returns exactly 2 bytes, the
decoded output being `{0xAA, 0x00}` — the implicit zero of the preceding
block (code 0x02 ≠ 0xFF) is emitted before the terminator is read, the
terminator is consumed but not emitted, and nothing after it is processed. -/
theorem cobsDecode_delimiter_amended :
    cobsDecode [2, 170, 0, 255] = [170, 0] ∧ (cobsDecode [2, 170, 0, 255]).length = 2 ∧
      cobsDecode [2, 170, 0, 255] = cobsDecode [2, 170, 0] := by
  decide

/-- Counterexample to claim C6 as stated: at input length 254 (a positive
multiple of 254) no byte sequence reaches `maxCobsEncodedLength 254 = 256`;
the encoder returns at most 255 there. -/
theorem cobsEncode_bound_tightness_cex :
    ¬ ∃ d : List Nat, d.length = 254 ∧ (cobsEncode d).2 = maxCobsEncodedLength 254 := by
  rintro ⟨d, hd, hret⟩
  rw [cobsEncode_eq] at hret
  have hret2 : (encF d).1.length = maxCobsEncodedLength 254 := hret
  have h : (encF d).1.length ≤ d.length + (d.length + 253) / 254 :=
    encFAux_length_sharp (d.length + 1) d (by omega) (by omega)
  rw [hd] at h
  unfold maxCobsEncodedLength at hret2
  omega

/-- Claim C6 as amended: for every input length `L` that is zero or not a
multiple of 254, the all-nonzero input of length `L` attains
`maxCobsEncodedLength L` exactly (for positive multiples of 254 the bound
is not attained by any input, per the counterexample). -/
theorem cobsEncode_bound_tight_off_multiples (L : Nat) (h : ¬(0 < L ∧ L % 254 = 0)) :
    (List.replicate L 65).length = L ∧
      (cobsEncode (List.replicate L 65)).2 = maxCobsEncodedLength L := by
  refine ⟨List.length_replicate L 65, ?_⟩
  rw [cobsEncode_eq]
  show (encF (List.replicate L 65)).1.length = maxCobsEncodedLength L
  have hr := encFAux_replicate ((List.replicate L 65).length + 1) L
    (by rw [List.length_replicate]; omega) h
  unfold maxCobsEncodedLength
  exact hr

/-- Witness for the amended C6 at the concrete length 5. -/
theorem cobsEncode_bound_tight_off_multiples_witness :
    ¬(0 < 5 ∧ 5 % 254 = 0) ∧ ((List.replicate 5 65).length = 5 ∧
      (cobsEncode (List.replicate 5 65)).2 = maxCobsEncodedLength 5) :=
  ⟨by decide, cobsEncode_bound_tight_off_multiples 5 (by decide)⟩

/-- Claim C7: null-reference handling with atomicity — when the data
reference or the buffer reference is null, `cobsEncode` returns 0 having
written nothing, and `cobsDecode` returns 0 having written nothing. -/
theorem cobsEncodeC_cobsDecodeC_null (data : Option (List Nat)) (buffer : Bool)
    (h : data = none ∨ buffer = false) :
    (cobsEncodeC data buffer).2 = 0 ∧ (∀ i, (cobsEncodeC data buffer).1 i = none) ∧
      cobsDecodeC data buffer = [] := by
  rcases h with h | h
  · subst h
    cases buffer with
    | false => exact ⟨rfl, fun i => rfl, rfl⟩
    | true => exact ⟨rfl, fun i => rfl, rfl⟩
  · subst h
    cases data with
    | none => exact ⟨rfl, fun i => rfl, rfl⟩
    | some d => exact ⟨rfl, fun i => rfl, rfl⟩

/-- Witness for C7 with a null data reference. -/
theorem cobsEncodeC_cobsDecodeC_null_witness :
    ((none : Option (List Nat)) = none ∨ true = false) ∧
      ((cobsEncodeC none true).2 = 0 ∧ (∀ i, (cobsEncodeC none true).1 i = none) ∧
        cobsDecodeC none true = []) :=
  ⟨Or.inl rfl, cobsEncodeC_cobsDecodeC_null none true (Or.inl rfl)⟩

/-- Claim C8: decode never expands — for every input byte sequence
(including malformed encodings), the count of bytes written and returned by
the decoder is at most the input length. -/
theorem cobsDecode_length_le (d : List Nat) : (cobsDecode d).length ≤ d.length := by
  have h := decLoop_length_le d 255 0 []
  simpa [cobsDecode] using h

set_option maxRecDepth 4096 in
/-- Claim C9: every index the encoder writes lies strictly below
`maxCobsEncodedLength` of the input length (a buffer of that size is never
overrun); and for the input of 254 non-zero bytes the encoder returns 255
yet stores the byte 0x01 at index 255, one position past its logical
output. -/
theorem cobsEncode_writes_below_bound :
    (∀ (d : List Nat) (i : Nat), (cobsEncode d).1 i ≠ none →
        i < maxCobsEncodedLength d.length) ∧
      ((cobsEncode (List.replicate 254 65)).2 = 255 ∧
        (cobsEncode (List.replicate 254 65)).1 255 = some 1) := by
  constructor
  · intro d i hi
    rw [cobsEncode_eq] at hi
    have hi2 : writeSeq (fun _ => none) 0 ((encF d).1 ++ (encF d).2) i ≠ none := hi
    rw [writeSeq_apply] at hi2
    by_cases hin : 0 ≤ i ∧ i - 0 < ((encF d).1 ++ (encF d).2).length
    · have htot : (encF d).1.length + (encF d).2.length ≤
          d.length + d.length / 254 + 1 :=
        encFAux_total_length (d.length + 1) d (by omega)
      have hlap : ((encF d).1 ++ (encF d).2).length =
          (encF d).1.length + (encF d).2.length := List.length_append _ _
      unfold maxCobsEncodedLength
      omega
    · rw [if_neg hin] at hi2
      exact absurd rfl hi2
  · have h1 : (cobsEncode (List.replicate 254 65)).2 = 255 := by
      rw [cobsEncode_eq, encF_replicate_254]
      simp [List.length_replicate]
    have h2 : (cobsEncode (List.replicate 254 65)).1 255 = some 1 := by
      rw [cobsEncode_eq]
      show writeSeq (fun _ => none) 0
        ((encF (List.replicate 254 65)).1 ++ (encF (List.replicate 254 65)).2) 255 = some 1
      rw [encF_replicate_254]
      show writeSeq (fun _ => none) 0 ((255 :: List.replicate 254 65) ++ [1]) 255 = some 1
      rw [writeSeq_apply]
      rw [if_pos ⟨Nat.zero_le 255, by simp [List.length_append, List.length_replicate]⟩]
      simp only [Nat.sub_zero]
      rw [List.getElem?_append]
      rw [if_neg (by simp [List.length_replicate])]
      simp [List.length_replicate]
    exact ⟨h1, h2⟩

/-- Witness for C9 at the concrete input `[7]`, index 0. -/
theorem cobsEncode_writes_below_bound_witness :
    (cobsEncode [7]).1 0 ≠ none ∧ 0 < maxCobsEncodedLength [7].length :=
  ⟨by decide, cobsEncode_writes_below_bound.1 [7] 0 (by decide)⟩

/-- Claim C10: the encoder returns 0 exactly on the null-reference paths
(for non-null references the count is at least 1, since at least one code
byte is emitted), so a zero return from encode unambiguously signals the
error; decode, in contrast, also returns 0 for the legitimate empty result
of decoding `{0x01}` with non-null references. -/
theorem cobsEncode_zero_iff_null :
    (∀ (data : Option (List Nat)) (buffer : Bool),
        (cobsEncodeC data buffer).2 = 0 ↔ (data = none ∨ buffer = false)) ∧
      cobsDecodeC (some [1]) true = [] := by
  constructor
  · intro data buffer
    constructor
    · intro h
      by_contra hcon
      push_neg at hcon
      rcases hcon with ⟨hd, hb⟩
      rcases data with _ | d
      · exact hd rfl
      · have hb2 : buffer = true := by
          cases buffer with
          | false => exact absurd rfl hb
          | true => rfl
        subst hb2
        have hpos : 1 ≤ (cobsEncode d).2 := encLoop_pos_le d 1 0 1 (fun _ => none)
        have h2 : (cobsEncode d).2 = 0 := h
        omega
    · intro h
      rcases h with h | h
      · subst h
        cases buffer with
        | false => rfl
        | true => rfl
      · subst h
        cases data with
        | none => rfl
        | some d => rfl
  · rfl

end Cobs
